import Mathlib

/-!
Shallow embedding of the `datagram` Go package (gbkr-com/datagram): a framing
layer over UDP with pooled buffers, typed big-endian writers/readers, an
optional 8-byte filter hash and an optional 8-byte sequence number.

Bytes are modelled as `Nat` (values < 256 wherever the encoders produce them),
byte slices as `List Nat`, Go's `bytes.Buffer` as a list of unread bytes plus
the capacity of its backing array.  Machine integers are `Nat`/`Int` with
explicit `% 2 ^ w` where Go wraps.  `float64` values are modelled by their
IEEE-754 bit pattern (a `Nat < 2 ^ 64`): `binary.Write`/`binary.Read` move
exactly those bits, via `math.Float64bits`, which is a bijection onto patterns.
Fallible operations return an error code paired with the post-state, mirroring
Go's mutate-in-place methods that return an `error`.
-/

namespace Datagram

/-- The error values of the package (`errors.go`) together with the two
`io` errors that `binary.Read` / `io.ReadFull` can surface. -/
inductive GoErr where
  | overflow
  | closedWriter
  | closedReader
  | eof
  | unexpectedEOF
deriving DecidableEq, Repr

/-- Big-endian encoding of `v` into `w` bytes (most significant first), as
produced by `binary.Write(..., binary.BigEndian, v)`; only `v % 256 ^ w`
is represented, exactly as Go truncates to the machine width. -/
def beBytes : Nat → Nat → List Nat
  | 0, _ => []
  | w + 1, v => beBytes w (v / 256) ++ [v % 256]

/-- Big-endian decoding of a byte list, as performed by `binary.Read`. -/
def beVal : List Nat → Nat
  | [] => 0
  | b :: rest => b * 256 ^ rest.length + beVal rest

/-- Two's-complement reading of 8 big-endian bytes as a Go `int64`. -/
def beValSigned (l : List Nat) : Int :=
  if beVal l < 2 ^ 63 then (beVal l : Int) else (beVal l : Int) - 2 ^ 64

/-- Go's `bytes.Buffer`: the unread contents plus the capacity of the backing
array (`Cap()`).  `Len()` is `data.length`. -/
structure Buffer where
  data : List Nat
  cap : Nat
deriving DecidableEq, Repr

/-- From `writer.go`: a `Writer` wraps one borrowed `*bytes.Buffer`; `none` models
the nil pointer left behind once the buffer has been released. -/
structure Writer where
  buffer : Option Buffer
deriving DecidableEq, Repr

/-- Method `Writer.Remaining` calls `w.buffer.Cap() - w.buffer.Len()` with no nil
check, so on a released writer it dereferences a nil pointer: `none` models
that panic.  Every other writer method checks for nil first. -/
def Writer.Remaining (w : Writer) : Option Int :=
  w.buffer.map (fun b => (b.cap : Int) - (b.data.length : Int))

/-- Method `Writer.WriteUint16`: closed check, then `Cap() < Len() + 2` overflow
check, then append the 2-byte big-endian encoding.  The pair carries the
post-state; on error the writer is returned untouched, as in the source. -/
def Writer.WriteUint16 (w : Writer) (v : Nat) : Except GoErr Unit × Writer :=
  match w.buffer with
  | none => (.error .closedWriter, w)
  | some b =>
    if b.cap < b.data.length + 2 then (.error .overflow, w)
    else (.ok (), ⟨some ⟨b.data ++ beBytes 2 v, b.cap⟩⟩)

/-- Method `Writer.WriteUint64`: as `WriteUint16` with an 8-byte encoding. -/
def Writer.WriteUint64 (w : Writer) (v : Nat) : Except GoErr Unit × Writer :=
  match w.buffer with
  | none => (.error .closedWriter, w)
  | some b =>
    if b.cap < b.data.length + 8 then (.error .overflow, w)
    else (.ok (), ⟨some ⟨b.data ++ beBytes 8 v, b.cap⟩⟩)

/-- Method `Writer.WriteInt64`: Go writes the two's-complement bit pattern
`uint64(v)`, i.e. `v` modulo `2 ^ 64`, big-endian. -/
def Writer.WriteInt64 (w : Writer) (v : Int) : Except GoErr Unit × Writer :=
  match w.buffer with
  | none => (.error .closedWriter, w)
  | some b =>
    if b.cap < b.data.length + 8 then (.error .overflow, w)
    else (.ok (), ⟨some ⟨b.data ++ beBytes 8 (v % (2 ^ 64)).toNat, b.cap⟩⟩)

/-- Method `Writer.WriteFloat64`: Go writes `math.Float64bits v` big-endian; the
argument here is that 64-bit pattern. -/
def Writer.WriteFloat64 (w : Writer) (bits : Nat) : Except GoErr Unit × Writer :=
  match w.buffer with
  | none => (.error .closedWriter, w)
  | some b =>
    if b.cap < b.data.length + 8 then (.error .overflow, w)
    else (.ok (), ⟨some ⟨b.data ++ beBytes 8 bits, b.cap⟩⟩)

/-- Method `Writer.Write`: the variable-length write.  The source checks
`w.buffer.Cap() < len(v)+2` — the TOTAL capacity, not the remaining space —
then appends the 2-byte big-endian length prefix (`uint16(len(v))`, hence
the `% 2 ^ 16` inside `beBytes 2`) followed by the raw bytes.  When the
append exceeds `Cap()`, `bytes.Buffer` grows its backing array: the model
records a grown capacity of at least the bytes now held (Go allocates at
least this much; no theorem depends on the exact grown figure). -/
def Writer.Write (w : Writer) (v : List Nat) : Except GoErr Unit × Writer :=
  match w.buffer with
  | none => (.error .closedWriter, w)
  | some b =>
    if b.cap < v.length + 2 then (.error .overflow, w)
    else (.ok (), ⟨some ⟨b.data ++ beBytes 2 v.length ++ v,
      max b.cap (b.data.length + 2 + v.length)⟩⟩)

/-- Function `io.ReadFull` on a `bytes.Buffer`, as used by `binary.Read` with a
fixed-width destination: an empty buffer yields `io.EOF` (unless zero bytes
were requested), a buffer holding fewer than `n` bytes is drained and yields
`io.ErrUnexpectedEOF`, otherwise exactly `n` bytes are consumed. -/
def readFull (n : Nat) (data : List Nat) : Except GoErr (List Nat) × List Nat :=
  if data.isEmpty then
    (if n = 0 then .ok [] else .error .eof, data)
  else if data.length < n then (.error .unexpectedEOF, [])
  else (.ok (data.take n), data.drop n)

/-- The pool of recyclable objects, `app.Pool` from `github.com/gbkr-com/app`.
Modelled from the spec: that repository is not under `src/`; per the spec the
pool is bounded, `acquire` never blocks and fabricates a fresh object when
empty, and `release` silently discards the object when the pool is already at
capacity (`WithPoolDiscard`). -/
structure Pool where
  capacity : Nat
  items : List Buffer
deriving DecidableEq, Repr

/-- Method `Pool.Recycle` under the discard-on-overflow policy: append the returned
buffer unless the pool is already full. -/
def Pool.Recycle (p : Pool) (b : Buffer) : Pool :=
  if p.items.length < p.capacity then ⟨p.capacity, p.items ++ [b]⟩ else p

/-- From `reader.go`: a `Reader` wraps one borrowed buffer; `none` models the nil
pointer after `Close`.  The back-reference to the endpoint only reaches the
buffer pool, which is passed explicitly to `Close` here. -/
structure Reader where
  buffer : Option Buffer
deriving DecidableEq, Repr

/-- Method `Reader.ReadUint16`: closed check, then `binary.Read` of 2 bytes. -/
def Reader.ReadUint16 (r : Reader) : Except GoErr Nat × Reader :=
  match r.buffer with
  | none => (.error .closedReader, r)
  | some b =>
    match readFull 2 b.data with
    | (.ok bs, rest) => (.ok (beVal bs), ⟨some ⟨rest, b.cap⟩⟩)
    | (.error e, rest) => (.error e, ⟨some ⟨rest, b.cap⟩⟩)

/-- Method `Reader.ReadUint64`: closed check, then `binary.Read` of 8 bytes. -/
def Reader.ReadUint64 (r : Reader) : Except GoErr Nat × Reader :=
  match r.buffer with
  | none => (.error .closedReader, r)
  | some b =>
    match readFull 8 b.data with
    | (.ok bs, rest) => (.ok (beVal bs), ⟨some ⟨rest, b.cap⟩⟩)
    | (.error e, rest) => (.error e, ⟨some ⟨rest, b.cap⟩⟩)

/-- Method `Reader.ReadInt64`: 8 bytes decoded as a two's-complement `int64`. -/
def Reader.ReadInt64 (r : Reader) : Except GoErr Int × Reader :=
  match r.buffer with
  | none => (.error .closedReader, r)
  | some b =>
    match readFull 8 b.data with
    | (.ok bs, rest) => (.ok (beValSigned bs), ⟨some ⟨rest, b.cap⟩⟩)
    | (.error e, rest) => (.error e, ⟨some ⟨rest, b.cap⟩⟩)

/-- Method `Reader.ReadFloat64`: 8 bytes decoded as the IEEE-754 bit pattern
(`math.Float64frombits` of the result, a bijection, recovers the float). -/
def Reader.ReadFloat64 (r : Reader) : Except GoErr Nat × Reader :=
  match r.buffer with
  | none => (.error .closedReader, r)
  | some b =>
    match readFull 8 b.data with
    | (.ok bs, rest) => (.ok (beVal bs), ⟨some ⟨rest, b.cap⟩⟩)
    | (.error e, rest) => (.error e, ⟨some ⟨rest, b.cap⟩⟩)

/-- Method `Reader.Read`: parse the 2-byte big-endian length prefix, reject lengths
above `MaxPayload` (65507), then `v := make([]byte, length)` followed by
`r.buffer.Read(v)`.  `bytes.Buffer.Read` errors with `io.EOF` only when the
buffer is already empty (and the request nonzero); with a nonempty buffer it
copies `min length available` bytes into the zero-filled `v` and reports NO
error, so a partial short read succeeds with a zero-padded result. -/
def Reader.Read (r : Reader) : Except GoErr (List Nat) × Reader :=
  match r.buffer with
  | none => (.error .closedReader, r)
  | some b =>
    match readFull 2 b.data with
    | (.error e, rest) => (.error e, ⟨some ⟨rest, b.cap⟩⟩)
    | (.ok lenBytes, rest) =>
      if 65507 < beVal lenBytes then (.error .overflow, ⟨some ⟨rest, b.cap⟩⟩)
      else if rest.isEmpty then
        (if beVal lenBytes = 0 then .ok [] else .error .eof, ⟨some ⟨rest, b.cap⟩⟩)
      else
        (.ok (rest.take (beVal lenBytes) ++
            List.replicate (beVal lenBytes - rest.length) 0),
          ⟨some ⟨rest.drop (beVal lenBytes), b.cap⟩⟩)

/-- Method `Reader.Close`: the first call recycles the buffer into the endpoint's
pool and clears the reference; on an already-closed reader it fails with
`ErrClosedReader`, touching neither the reader nor the pool. -/
def Reader.Close (r : Reader) (pool : Pool) : Except GoErr Unit × Reader × Pool :=
  match r.buffer with
  | none => (.error .closedReader, r, pool)
  | some b => (.ok (), ⟨none⟩, pool.Recycle b)

/-- Constant `MaxPayload` (from the source): 65535 − 8 (UDP) − 20 (IPv4) = 65507. -/
def MaxPayload : Nat := 65535 - 8 - 20

/-- The protocol descriptor (`Protocol` in the source): `Hash` is a `uint64`,
`Payload` a `uint16`. -/
structure Protocol where
  Hash : Nat
  Sequenced : Bool
  Payload : Nat
deriving DecidableEq, Repr

/-- Function `protocolWrite`: stamp the filter hash into a fresh writer. -/
def protocolWrite (protocol : Protocol) (w : Writer) : Except GoErr Unit × Writer :=
  w.WriteUint64 protocol.Hash

/-- Function `protocolRead`: read the leading `uint64`; a read error propagates with
`ok = false`, a mismatching hash yields `ok = false` with NO error, a match
yields `ok = true`. -/
def protocolRead (protocol : Protocol) (r : Reader) : Except GoErr Bool × Reader :=
  match r.ReadUint64 with
  | (.error e, r') => (.error e, r')
  | (.ok hash, r') => (.ok (hash = protocol.Hash), r')

/-- The endpoint state the claims depend on: the descriptor and the
`sequence` counter (`uint64`, last written value).  The socket, the
zero-fill template and the two pools are handled at the call sites that
need them. -/
structure Endpoint where
  protocol : Protocol
  sequence : Nat
deriving DecidableEq, Repr

/-- Method `Endpoint.incr`: `e.sequence++` with `uint64` wrap-around. -/
def Endpoint.incr (e : Endpoint) : Endpoint :=
  ⟨e.protocol, (e.sequence + 1) % 2 ^ 64⟩

/-- Accessor `Endpoint.LastSequence`. -/
def Endpoint.LastSequence (e : Endpoint) : Nat := e.sequence

/-- Function `sequenceWrite`: increment the endpoint counter, then write the NEW
value big-endian into the writer. -/
def sequenceWrite (e : Endpoint) (w : Writer) :
    Endpoint × (Except GoErr Unit × Writer) :=
  (e.incr, w.WriteUint64 e.incr.LastSequence)

/-- Function `sequenceRead`: parse the 8-byte sequence number, returned as-is. -/
def sequenceRead (_e : Endpoint) (r : Reader) : Except GoErr Nat × Reader :=
  r.ReadUint64

/-- Method `Endpoint.Writer()` (named `acquireWriter` here because `Writer` is the
structure): take a writer and a buffer from the pools, then stamp the filter
hash and/or the sequence number.  The buffer handed out is the pool factory's
result — empty with capacity `Payload` — which is exact whenever no grown
buffer has been recycled.  The `error` results of `protocolWrite` and
`sequenceWrite` are discarded by the source, so a failed stamp leaves the
writer as it was. -/
def Endpoint.acquireWriter (e : Endpoint) : Endpoint × Writer :=
  let w0 : Writer := ⟨some ⟨[], e.protocol.Payload⟩⟩
  let w1 := if 0 < e.protocol.Hash then (protocolWrite e.protocol w0).2 else w0
  if e.protocol.Sequenced then
    let s := sequenceWrite e w1
    (s.1, s.2.2)
  else (e, w1)

/-- Iteration of `e.acquireWriter`, applied `n` times, keeping only the endpoint state. -/
def Endpoint.acquireTimes (e : Endpoint) : Nat → Endpoint
  | 0 => e
  | n + 1 => (e.acquireTimes n).acquireWriter.1

/-- The tail of `Endpoint.Receive`: once the (optional) hash check has
passed, with `Sequenced` the next 8 bytes are parsed into `seq` (0 on a read
error, since `binary.Read` leaves the destination zero) and the reader is
returned in either case — the caller still holds the buffer. -/
def Endpoint.receiveSeq (e : Endpoint) (r : Reader) :
    Option Reader × Nat × Option GoErr :=
  if e.protocol.Sequenced then
    match sequenceRead e r with
    | (.ok s, r') => (some r', s, none)
    | (.error e', r') => (some r', 0, some e')
  else (some r, 0, none)

/-- Method `Endpoint.Receive` after the socket read: the received datagram sits in a
pool buffer truncated to the received byte count (capacity `Payload`), wrapped
in a reader.  With a non-zero hash, a hash-read error returns `(nil, err)` and
a hash mismatch returns `(nil, nil)`; otherwise the sequence step runs on the
reader.  Result: `(reader?, seq, error?)`. -/
def Endpoint.Receive (e : Endpoint) (datagram : List Nat) :
    Option Reader × Nat × Option GoErr :=
  let r0 : Reader := ⟨some ⟨datagram, e.protocol.Payload⟩⟩
  if 0 < e.protocol.Hash then
    match protocolRead e.protocol r0 with
    | (.error e', _) => (none, 0, some e')
    | (.ok ok, r1) => if ok then e.receiveSeq r1 else (none, 0, none)
  else e.receiveSeq r0

/-- The panic guards at the head of `NewEndpoint` (the nil-protocol check has
no counterpart for a value type): payload zero or above `MaxPayload`, a
non-zero hash with payload below 8, a negative port, or a pool size below
one.  `true` means the construction panics. -/
def newEndpointPanics (protocol : Protocol) (port pool : Int) : Bool :=
  decide (protocol.Payload = 0) || decide (MaxPayload < protocol.Payload) ||
    (decide (0 < protocol.Hash) && decide (protocol.Payload < 8)) ||
    decide (port < 0) || decide (pool < 1)

/-- One typed value of the payload body: the five supported field kinds.
`f64` carries the IEEE-754 bit pattern of the float. -/
inductive Item where
  | u16 (v : Nat)
  | u64 (v : Nat)
  | i64 (v : Int)
  | f64 (bits : Nat)
  | bytes (v : List Nat)
deriving DecidableEq, Repr

/-- A value representable by its Go type, with byte-string lengths within the
`MaxPayload` sanity bound that `Reader.Read` enforces. -/
def Item.valid : Item → Prop
  | .u16 v => v < 2 ^ 16
  | .u64 v => v < 2 ^ 64
  | .i64 v => -(2 ^ 63) ≤ v ∧ v < 2 ^ 63
  | .f64 bits => bits < 2 ^ 64
  | .bytes v => v.length ≤ MaxPayload

instance : DecidablePred Item.valid := fun i =>
  match i with
  | .u16 v => inferInstanceAs (Decidable (v < 2 ^ 16))
  | .u64 v => inferInstanceAs (Decidable (v < 2 ^ 64))
  | .i64 v => inferInstanceAs (Decidable (-(2 ^ 63) ≤ v ∧ v < 2 ^ 63))
  | .f64 bits => inferInstanceAs (Decidable (bits < 2 ^ 64))
  | .bytes v => inferInstanceAs (Decidable (v.length ≤ MaxPayload))

/-- Dispatch one item to the corresponding writer method. -/
def writeItem (w : Writer) : Item → Except GoErr Unit × Writer
  | .u16 v => w.WriteUint16 v
  | .u64 v => w.WriteUint64 v
  | .i64 v => w.WriteInt64 v
  | .f64 bits => w.WriteFloat64 bits
  | .bytes v => w.Write v

/-- Write a sequence of items, stopping at the first error. -/
def writeItems (w : Writer) : List Item → Except GoErr Unit × Writer
  | [] => (.ok (), w)
  | i :: rest =>
    match writeItem w i with
    | (.ok _, w') => writeItems w' rest
    | (.error e, w') => (.error e, w')

/-- Dispatch one read of the same TYPE as the given item, repackaging the
value read as an item for comparison. -/
def readItem (r : Reader) : Item → Except GoErr Item × Reader
  | .u16 _ =>
    match r.ReadUint16 with
    | (.ok v, r') => (.ok (.u16 v), r')
    | (.error e, r') => (.error e, r')
  | .u64 _ =>
    match r.ReadUint64 with
    | (.ok v, r') => (.ok (.u64 v), r')
    | (.error e, r') => (.error e, r')
  | .i64 _ =>
    match r.ReadInt64 with
    | (.ok v, r') => (.ok (.i64 v), r')
    | (.error e, r') => (.error e, r')
  | .f64 _ =>
    match r.ReadFloat64 with
    | (.ok v, r') => (.ok (.f64 v), r')
    | (.error e, r') => (.error e, r')
  | .bytes _ =>
    match r.Read with
    | (.ok v, r') => (.ok (.bytes v), r')
    | (.error e, r') => (.error e, r')

/-- Perform the same sequence of typed reads, collecting the values read. -/
def readItems (r : Reader) : List Item → Except GoErr (List Item) × Reader
  | [] => (.ok [], r)
  | i :: rest =>
    match readItem r i with
    | (.ok j, r') =>
      match readItems r' rest with
      | (.ok js, r'') => (.ok (j :: js), r'')
      | (.error e, r'') => (.error e, r'')
    | (.error e, r') => (.error e, r')

/-- The bytes one item contributes to the payload body. -/
def itemBytes : Item → List Nat
  | .u16 v => beBytes 2 v
  | .u64 v => beBytes 8 v
  | .i64 v => beBytes 8 (v % (2 ^ 64)).toNat
  | .f64 bits => beBytes 8 bits
  | .bytes v => beBytes 2 v.length ++ v

/-- The concatenated bytes of a sequence of items. -/
def itemsBytes : List Item → List Nat
  | [] => []
  | i :: rest => itemBytes i ++ itemsBytes rest

theorem beBytes_length (w v : Nat) : (beBytes w v).length = w := by
  induction w generalizing v with
  | zero => rfl
  | succ w ih => simp [beBytes, ih]

theorem beVal_append (l₁ l₂ : List Nat) :
    beVal (l₁ ++ l₂) = beVal l₁ * 256 ^ l₂.length + beVal l₂ := by
  induction l₁ with
  | nil => simp [beVal]
  | cons b l₁ ih =>
    simp only [List.cons_append, beVal, List.append_eq, ih, List.length_append,
      pow_add]
    ring

theorem beVal_beBytes (w v : Nat) : beVal (beBytes w v) = v % 256 ^ w := by
  induction w generalizing v with
  | zero => simp [beBytes, beVal, Nat.mod_one]
  | succ w ih =>
    rw [beBytes, beVal_append, ih]
    simp only [beVal, List.length_cons, List.length_nil, pow_zero, mul_one,
      pow_one, add_zero, pow_succ]
    rw [mul_comm (256 ^ w) 256, Nat.mod_mul]
    ring

theorem beVal_beBytes_eq (w v : Nat) (h : v < 256 ^ w) :
    beVal (beBytes w v) = v := by
  rw [beVal_beBytes, Nat.mod_eq_of_lt h]

theorem beValSigned_beBytes (v : Int) (h1 : -(2 ^ 63) ≤ v) (h2 : v < 2 ^ 63) :
    beValSigned (beBytes 8 (v % (2 ^ 64)).toNat) = v := by
  have hnn : 0 ≤ v % (2 ^ 64) := Int.emod_nonneg v (by norm_num)
  have hlt : v % (2 ^ 64) < 2 ^ 64 := Int.emod_lt_of_pos v (by norm_num)
  have hv : beVal (beBytes 8 (v % (2 ^ 64)).toNat) = (v % (2 ^ 64)).toNat := by
    apply beVal_beBytes_eq
    have h256 : (256 : Nat) ^ 8 = 2 ^ 64 := by norm_num
    rw [h256]
    omega
  unfold beValSigned
  rw [hv]
  split <;> omega

theorem readFull_append (n : Nat) (enc rest : List Nat) (h : enc.length = n) :
    readFull n (enc ++ rest) = (.ok enc, rest) := by
  subst h
  rcases he : enc ++ rest with _ | ⟨b, tl⟩
  · rw [List.append_eq_nil] at he
    obtain ⟨h1, h2⟩ := he
    subst h1; subst h2
    simp [readFull]
  · rw [← he]
    have hne : (enc ++ rest).isEmpty = false := by simp [he]
    have hlen : ¬ (enc ++ rest).length < enc.length := by
      simp [List.length_append]
    simp [readFull, hne, hlen, List.take_left, List.drop_left]

theorem readFull_short (n : Nat) (data : List Nat) (h : data.length < n) :
    ∃ e', readFull n data = (.error e', []) := by
  cases data with
  | nil =>
    refine ⟨.eof, ?_⟩
    have hn : ¬ n = 0 := by simp at h; omega
    simp [readFull, hn]
  | cons hd tl =>
    refine ⟨.unexpectedEOF, ?_⟩
    have hlt : tl.length + 1 < n := by simpa using h
    simp [readFull]
    omega

theorem writeItem_ok (b : Buffer) (i : Item) (w' : Writer)
    (h : writeItem ⟨some b⟩ i = (.ok (), w')) :
    ∃ c', w' = ⟨some ⟨b.data ++ itemBytes i, c'⟩⟩ := by
  cases i with
  | u16 v =>
    simp only [writeItem, Writer.WriteUint16, itemBytes] at h ⊢
    split at h
    · simp at h
    · simp only [Prod.mk.injEq] at h
      exact ⟨b.cap, h.2.symm⟩
  | u64 v =>
    simp only [writeItem, Writer.WriteUint64, itemBytes] at h ⊢
    split at h
    · simp at h
    · simp only [Prod.mk.injEq] at h
      exact ⟨b.cap, h.2.symm⟩
  | i64 v =>
    simp only [writeItem, Writer.WriteInt64, itemBytes] at h ⊢
    split at h
    · simp at h
    · simp only [Prod.mk.injEq] at h
      exact ⟨b.cap, h.2.symm⟩
  | f64 bits =>
    simp only [writeItem, Writer.WriteFloat64, itemBytes] at h ⊢
    split at h
    · simp at h
    · simp only [Prod.mk.injEq] at h
      exact ⟨b.cap, h.2.symm⟩
  | bytes v =>
    simp only [writeItem, Writer.Write, itemBytes] at h ⊢
    split at h
    · simp at h
    · simp only [Prod.mk.injEq] at h
      refine ⟨max b.cap (b.data.length + 2 + v.length), ?_⟩
      rw [← h.2, List.append_assoc]

theorem writeItems_ok (items : List Item) (b : Buffer) (w' : Writer)
    (h : writeItems ⟨some b⟩ items = (.ok (), w')) :
    ∃ c', w' = ⟨some ⟨b.data ++ itemsBytes items, c'⟩⟩ := by
  induction items generalizing b with
  | nil =>
    simp only [writeItems, Prod.mk.injEq] at h
    exact ⟨b.cap, by simp [itemsBytes, ← h.2]⟩
  | cons i rest ih =>
    rw [writeItems] at h
    rcases hw : writeItem ⟨some b⟩ i with ⟨res, wmid⟩
    rw [hw] at h
    cases res with
    | error e => simp at h
    | ok u =>
      cases u
      obtain ⟨cmid, hmid⟩ := writeItem_ok b i wmid hw
      subst hmid
      obtain ⟨c', hc'⟩ := ih ⟨b.data ++ itemBytes i, cmid⟩ h
      exact ⟨c', by rw [hc']; simp [itemsBytes, List.append_assoc]⟩

theorem readItem_itemBytes (i : Item) (hv : i.valid) (rest : List Nat) (c : Nat) :
    readItem ⟨some ⟨itemBytes i ++ rest, c⟩⟩ i = (.ok i, ⟨some ⟨rest, c⟩⟩) := by
  cases i with
  | u16 v =>
    have hr := readFull_append 2 (beBytes 2 v) rest (beBytes_length 2 v)
    have hval : beVal (beBytes 2 v) = v := beVal_beBytes_eq 2 v (by
      have : (256 : Nat) ^ 2 = 2 ^ 16 := by norm_num
      rw [this]; exact hv)
    simp [readItem, Reader.ReadUint16, itemBytes, hr, hval]
  | u64 v =>
    have hr := readFull_append 8 (beBytes 8 v) rest (beBytes_length 8 v)
    have hval : beVal (beBytes 8 v) = v := beVal_beBytes_eq 8 v (by
      have : (256 : Nat) ^ 8 = 2 ^ 64 := by norm_num
      rw [this]; exact hv)
    simp [readItem, Reader.ReadUint64, itemBytes, hr, hval]
  | f64 bits =>
    have hr := readFull_append 8 (beBytes 8 bits) rest (beBytes_length 8 bits)
    have hval : beVal (beBytes 8 bits) = bits := beVal_beBytes_eq 8 bits (by
      have : (256 : Nat) ^ 8 = 2 ^ 64 := by norm_num
      rw [this]; exact hv)
    simp [readItem, Reader.ReadFloat64, itemBytes, hr, hval]
  | i64 v =>
    have hr := readFull_append 8 (beBytes 8 (v % (2 ^ 64)).toNat) rest
      (beBytes_length 8 _)
    have hval := beValSigned_beBytes v hv.1 hv.2
    simp only [readItem, Reader.ReadInt64, itemBytes]
    rw [hr]
    have hval' := hval
    norm_num at hval'
    simp [hval']
  | bytes v =>
    have hlen : v.length ≤ MaxPayload := hv
    have h16 : v.length < 2 ^ 16 := by
      have hm : MaxPayload < 2 ^ 16 := by norm_num [MaxPayload]
      omega
    have hr := readFull_append 2 (beBytes 2 v.length) (v ++ rest)
      (beBytes_length 2 _)
    have hval : beVal (beBytes 2 v.length) = v.length :=
      beVal_beBytes_eq 2 v.length (by
        have h2 : (256 : Nat) ^ 2 = 2 ^ 16 := by norm_num
        rw [h2]; exact h16)
    have hover : ¬ 65507 < beVal (beBytes 2 v.length) := by
      rw [hval]; simp only [MaxPayload] at hlen; omega
    rcases hvr : v ++ rest with _ | ⟨hd, tl⟩
    · rw [List.append_eq_nil] at hvr
      obtain ⟨hv0, hr0⟩ := hvr
      subst hv0; subst hr0
      simp [readItem, Reader.Read, readFull, itemBytes, beBytes, beVal]
    · have hne : (v ++ rest).isEmpty = false := by rw [hvr]; rfl
      have htake : (v ++ rest).take v.length = v := List.take_left v rest
      have hdrop : (v ++ rest).drop v.length = rest := List.drop_left v rest
      have hrep : v.length - (v ++ rest).length = 0 := by
        rw [List.length_append]; omega
      have hover2 : ¬ 65507 < v.length := by
        simp only [MaxPayload] at hlen; omega
      simp only [readItem, Reader.Read, itemBytes, List.append_assoc]
      rw [hr]
      simp [hval, hover, hover2, hne, htake, hdrop, hrep]

theorem readItems_itemsBytes (items : List Item) (hv : ∀ i ∈ items, i.valid)
    (rest : List Nat) (c : Nat) :
    readItems ⟨some ⟨itemsBytes items ++ rest, c⟩⟩ items =
      (.ok items, ⟨some ⟨rest, c⟩⟩) := by
  induction items generalizing rest with
  | nil => simp [readItems, itemsBytes]
  | cons i tl ih =>
    have h1 := readItem_itemBytes i (hv i (List.mem_cons_self i tl))
      (itemsBytes tl ++ rest) c
    have h2 := ih (fun j hj => hv j (List.mem_cons_of_mem i hj)) rest
    rw [readItems, itemsBytes, List.append_assoc, h1]
    simp [h2]

/-- Claim C7: endpoint construction fails (panics) exactly when an invariant
is violated — payload zero, payload above 65507, or a non-zero filter hash
with payload below 8 — and never fails on these checks for a valid descriptor
with a non-negative port and a pool size of at least one. -/
theorem c7_construction_validation (p : Protocol) (port pool : Int)
    (hport : 0 ≤ port) (hpool : 1 ≤ pool) :
    newEndpointPanics p port pool = true ↔
      p.Payload = 0 ∨ MaxPayload < p.Payload ∨ (p.Hash ≠ 0 ∧ p.Payload < 8) := by
  simp only [newEndpointPanics, MaxPayload, Bool.or_eq_true, Bool.and_eq_true,
    decide_eq_true_eq]
  omega

/-- Witness for C7 at a concrete violating and a concrete valid input. -/
theorem c7_construction_validation_witness :
    newEndpointPanics ⟨0, false, 0⟩ 0 1 = true ∧
      newEndpointPanics ⟨0, false, 256⟩ 0 8 = false := by
  constructor
  · exact (c7_construction_validation ⟨0, false, 0⟩ 0 1 (by decide)
      (by decide)).mpr (Or.inl rfl)
  · have h := (c7_construction_validation ⟨0, false, 256⟩ 0 8 (by decide)
      (by decide))
    by_contra hc
    simp only [Bool.not_eq_false] at hc
    rcases h.mp hc with h1 | h2 | h3
    · exact absurd h1 (by decide)
    · exact absurd h2 (by decide)
    · exact absurd h3.1 (by decide)

/-- Claim C8: the first `Close` on a reader recycles its buffer into the
endpoint's pool, clears the reference and succeeds; any `Close` on an
already-closed reader fails with `ErrClosedReader`, changing neither the
reader nor the pool. -/
theorem c8_close_idempotence (r : Reader) (b : Buffer) (pool : Pool)
    (hb : r.buffer = some b) :
    Reader.Close r pool = (.ok (), ⟨none⟩, pool.Recycle b) ∧
    ∀ pool2 : Pool,
      Reader.Close ⟨none⟩ pool2 = (.error .closedReader, ⟨none⟩, pool2) := by
  constructor
  · simp [Reader.Close, hb]
  · intro pool2
    rfl

/-- Witness for C8: one open reader closed twice through a pool of
capacity 2. -/
theorem c8_close_idempotence_witness :
    Reader.Close ⟨some ⟨[1], 4⟩⟩ ⟨2, []⟩ =
      (.ok (), ⟨none⟩, Pool.Recycle ⟨2, []⟩ ⟨[1], 4⟩) ∧
    Reader.Close ⟨none⟩ ⟨2, [⟨[1], 4⟩]⟩ =
      (.error .closedReader, ⟨none⟩, ⟨2, [⟨[1], 4⟩]⟩) := by
  have h := c8_close_idempotence ⟨some ⟨[1], 4⟩⟩ ⟨[1], 4⟩ ⟨2, []⟩ rfl
  exact ⟨h.1, h.2 ⟨2, [⟨[1], 4⟩]⟩⟩

/-- Claim C9: on a writer whose buffer reference has been released,
`Remaining` dereferences the nil buffer (modelled as `none`, i.e. a panic),
while every write operation instead returns `ErrClosedWriter` and leaves the
writer untouched. -/
theorem c9_remaining_nil_dereference (v16 v64 bits : Nat) (vI : Int)
    (bs : List Nat) :
    Writer.Remaining ⟨none⟩ = none ∧
    Writer.WriteUint16 ⟨none⟩ v16 = (.error .closedWriter, ⟨none⟩) ∧
    Writer.WriteUint64 ⟨none⟩ v64 = (.error .closedWriter, ⟨none⟩) ∧
    Writer.WriteInt64 ⟨none⟩ vI = (.error .closedWriter, ⟨none⟩) ∧
    Writer.WriteFloat64 ⟨none⟩ bits = (.error .closedWriter, ⟨none⟩) ∧
    Writer.Write ⟨none⟩ bs = (.error .closedWriter, ⟨none⟩) :=
  ⟨rfl, rfl, rfl, rfl, rfl, rfl⟩

/-- Witness for C9 at concrete values. -/
theorem c9_remaining_nil_dereference_witness :
    Writer.Remaining ⟨none⟩ = none ∧
    Writer.WriteUint16 ⟨none⟩ 1 = (.error .closedWriter, ⟨none⟩) ∧
    Writer.WriteUint64 ⟨none⟩ 2 = (.error .closedWriter, ⟨none⟩) ∧
    Writer.WriteInt64 ⟨none⟩ (-3) = (.error .closedWriter, ⟨none⟩) ∧
    Writer.WriteFloat64 ⟨none⟩ 4 = (.error .closedWriter, ⟨none⟩) ∧
    Writer.Write ⟨none⟩ [5] = (.error .closedWriter, ⟨none⟩) :=
  c9_remaining_nil_dereference 1 2 4 (-3) [5]

/-- Counterexample to claim C1: a writer acquired from an endpoint with
payload size 4 and holding 3 bytes (remaining space 1) accepts `Write [6, 7]`
— a 4-byte segment that does not fit in the remaining space — with no
overflow error, growing the buffer to 7 bytes, past the declared capacity:
the source checks the segment against the TOTAL capacity, not the remaining
space. -/
theorem c1_write_remaining_counterexample :
    (Endpoint.acquireWriter ⟨⟨0, false, 4⟩, 0⟩).2 = ⟨some ⟨[], 4⟩⟩ ∧
    Writer.Write ⟨some ⟨[], 4⟩⟩ [5] = (.ok (), ⟨some ⟨[0, 1, 5], 4⟩⟩) ∧
    Writer.Remaining ⟨some ⟨[0, 1, 5], 4⟩⟩ = some 1 ∧
    Writer.Write ⟨some ⟨[0, 1, 5], 4⟩⟩ [6, 7] =
      (.ok (), ⟨some ⟨[0, 1, 5, 0, 2, 6, 7], 7⟩⟩) := by
  refine ⟨rfl, rfl, by decide, rfl⟩

/-- Claim C1 as amended: `Writer.Write` fails with the overflow error exactly
when the segment (2-byte prefix plus the bytes) does not fit in the TOTAL
capacity of the buffer, irrespective of the bytes already used; when that
check passes it appends the 2-byte big-endian length prefix and the raw
bytes, possibly past the declared capacity; when the segment does fit in the
remaining space, the append stays within the declared capacity. -/
theorem c1_write_total_capacity_semantics :
    (∀ (b : Buffer) (v : List Nat), b.cap < v.length + 2 →
      Writer.Write ⟨some b⟩ v = (.error .overflow, ⟨some b⟩)) ∧
    (∀ (b : Buffer) (v : List Nat), v.length + 2 ≤ b.cap →
      Writer.Write ⟨some b⟩ v =
        (.ok (), ⟨some ⟨b.data ++ beBytes 2 v.length ++ v,
          max b.cap (b.data.length + 2 + v.length)⟩⟩)) ∧
    (∀ (b : Buffer) (v : List Nat), b.data.length + v.length + 2 ≤ b.cap →
      Writer.Write ⟨some b⟩ v =
        (.ok (), ⟨some ⟨b.data ++ beBytes 2 v.length ++ v, b.cap⟩⟩) ∧
        (b.data ++ beBytes 2 v.length ++ v).length ≤ b.cap) := by
  refine ⟨?_, ?_, ?_⟩
  · intro b v h
    simp [Writer.Write, h]
  · intro b v h
    have h' : ¬ b.cap < v.length + 2 := by omega
    simp [Writer.Write, h']
  · intro b v h
    have h' : ¬ b.cap < v.length + 2 := by omega
    have hmax : max b.cap (b.data.length + 2 + v.length) = b.cap :=
      Nat.max_eq_left (by omega)
    constructor
    · simp [Writer.Write, h', hmax]
    · simp only [List.length_append, beBytes_length]
      omega

/-- Witness for the amended C1 at concrete inputs. -/
theorem c1_write_total_capacity_semantics_witness :
    Writer.Write ⟨some ⟨[], 3⟩⟩ [9, 9] = (.error .overflow, ⟨some ⟨[], 3⟩⟩) ∧
    Writer.Write ⟨some ⟨[7], 8⟩⟩ [8] =
      (.ok (), ⟨some ⟨[7] ++ beBytes 2 1 ++ [8], max 8 4⟩⟩) ∧
    Writer.Write ⟨some ⟨[7], 8⟩⟩ [8] =
      (.ok (), ⟨some ⟨[7] ++ beBytes 2 1 ++ [8], 8⟩⟩) := by
  refine ⟨?_, ?_, ?_⟩
  · exact c1_write_total_capacity_semantics.1 ⟨[], 3⟩ [9, 9] (by decide)
  · exact c1_write_total_capacity_semantics.2.1 ⟨[7], 8⟩ [8] (by decide)
  · exact (c1_write_total_capacity_semantics.2.2 ⟨[7], 8⟩ [8] (by decide)).1

/-- Counterexample to claim C6: a reader whose buffer declares a 2-byte
string but holds only 1 byte after the prefix — a short read — does NOT
fail: `bytes.Buffer.Read` reports an error only on an empty buffer, so the
call succeeds with the one available byte zero-padded to the declared
length. -/
theorem c6_short_read_counterexample :
    Reader.Read ⟨some ⟨[0, 2, 7], 256⟩⟩ = (.ok [7, 0], ⟨some ⟨[], 256⟩⟩) := by
  rfl

/-- Claim C6 as amended: `Reader.Read` parses the 2-byte big-endian length
prefix; a declared length above `MaxPayload` (65507) fails with the overflow
error; with at least the declared number of bytes available it consumes and
returns exactly those bytes; with NO bytes available (and a non-zero declared
length) it fails with an end-of-file error; but a PARTIAL short read — at
least one byte yet fewer than declared — succeeds, returning the available
bytes zero-padded to the declared length and draining the buffer. -/
theorem c6_read_semantics :
    (∀ (n : Nat) (rest : List Nat) (c : Nat), n < 2 ^ 16 → 65507 < n →
      Reader.Read ⟨some ⟨beBytes 2 n ++ rest, c⟩⟩ =
        (.error .overflow, ⟨some ⟨rest, c⟩⟩)) ∧
    (∀ (n : Nat) (rest : List Nat) (c : Nat), n ≤ 65507 → n ≤ rest.length →
      Reader.Read ⟨some ⟨beBytes 2 n ++ rest, c⟩⟩ =
        (.ok (rest.take n), ⟨some ⟨rest.drop n, c⟩⟩)) ∧
    (∀ (n c : Nat), 0 < n → n ≤ 65507 →
      Reader.Read ⟨some ⟨beBytes 2 n, c⟩⟩ = (.error .eof, ⟨some ⟨[], c⟩⟩)) ∧
    (∀ (n : Nat) (rest : List Nat) (c : Nat), n ≤ 65507 → rest ≠ [] →
      rest.length < n →
      Reader.Read ⟨some ⟨beBytes 2 n ++ rest, c⟩⟩ =
        (.ok (rest ++ List.replicate (n - rest.length) 0), ⟨some ⟨[], c⟩⟩)) := by
  have hv : ∀ n : Nat, n < 2 ^ 16 → beVal (beBytes 2 n) = n := by
    intro n hn
    exact beVal_beBytes_eq 2 n (by norm_num; omega)
  have hrf : ∀ (n : Nat) (rest : List Nat),
      readFull 2 (beBytes 2 n ++ rest) = (.ok (beBytes 2 n), rest) := fun n rest =>
    readFull_append 2 (beBytes 2 n) rest (beBytes_length 2 n)
  refine ⟨?_, ?_, ?_, ?_⟩
  · intro n rest c h16 hover
    simp only [Reader.Read]
    rw [hrf]
    simp [hv n h16, hover]
  · intro n rest c hn hlen
    have h16 : n < 2 ^ 16 := by omega
    have hover : ¬ 65507 < n := by omega
    simp only [Reader.Read]
    rw [hrf]
    rcases hr : rest with _ | ⟨hd, tl⟩
    · have hn0 : n = 0 := by
        subst hr; simp at hlen; omega
      subst hn0
      simp [hv 0 (by norm_num), hover]
    · rw [← hr]
      have hne : rest.isEmpty = false := by rw [hr]; rfl
      have hrep : n - rest.length = 0 := by omega
      simp [hv n h16, hover, hne, hrep]
  · intro n c hpos hn
    have h16 : n < 2 ^ 16 := by omega
    have hover : ¬ 65507 < n := by omega
    simp only [Reader.Read]
    have hrf0 : readFull 2 (beBytes 2 n) = (.ok (beBytes 2 n), []) := by
      have := hrf n []
      simpa using this
    rw [hrf0]
    simp [hv n h16, hover]
    omega
  · intro n rest c hn hne hlen
    have h16 : n < 2 ^ 16 := by omega
    have hover : ¬ 65507 < n := by omega
    have hne' : rest.isEmpty = false := by
      cases rest with
      | nil => exact absurd rfl hne
      | cons hd tl => rfl
    have htake : rest.take n = rest := List.take_of_length_le (by omega)
    have hdrop : rest.drop n = [] := List.drop_eq_nil_of_le (by omega)
    simp only [Reader.Read]
    rw [hrf]
    simp [hv n h16, hover, hne', htake, hdrop]

/-- Witness for the amended C6 at concrete inputs. -/
theorem c6_read_semantics_witness :
    Reader.Read ⟨some ⟨beBytes 2 65508 ++ [1], 256⟩⟩ =
      (.error .overflow, ⟨some ⟨[1], 256⟩⟩) ∧
    Reader.Read ⟨some ⟨beBytes 2 2 ++ [8, 9, 10], 256⟩⟩ =
      (.ok ([8, 9, 10].take 2), ⟨some ⟨[8, 9, 10].drop 2, 256⟩⟩) ∧
    Reader.Read ⟨some ⟨beBytes 2 3, 256⟩⟩ =
      (.error .eof, ⟨some ⟨[], 256⟩⟩) ∧
    Reader.Read ⟨some ⟨beBytes 2 3 ++ [7], 256⟩⟩ =
      (.ok ([7] ++ List.replicate (3 - [7].length) 0), ⟨some ⟨[], 256⟩⟩) := by
  refine ⟨?_, ?_, ?_, ?_⟩
  · exact c6_read_semantics.1 65508 [1] 256 (by decide) (by decide)
  · exact c6_read_semantics.2.1 2 [8, 9, 10] 256 (by decide) (by decide)
  · exact c6_read_semantics.2.2.1 3 256 (by decide) (by decide)
  · exact c6_read_semantics.2.2.2 3 [7] 256 (by decide) (by decide) (by decide)

set_option maxRecDepth 10000 in
/-- Claim C2: every fixed-width write fails with `ErrClosedWriter` on a
released writer; fails with `ErrOverflow`, leaving the buffer unmodified,
when the capacity minus the bytes used is below the value's width (2 for
`uint16`, 8 for the others); and otherwise appends the big-endian encoding.
Concretely: with payload size 256 and no filter hash a fresh writer has
`Remaining() = 256`; after writing 250 bytes `Remaining() = 4` and
`WriteFloat64` fails with the overflow error. -/
theorem c2_fixed_width_semantics :
    (∀ v : Nat, Writer.WriteUint16 ⟨none⟩ v = (.error .closedWriter, ⟨none⟩)) ∧
    (∀ v : Nat, Writer.WriteUint64 ⟨none⟩ v = (.error .closedWriter, ⟨none⟩)) ∧
    (∀ v : Int, Writer.WriteInt64 ⟨none⟩ v = (.error .closedWriter, ⟨none⟩)) ∧
    (∀ v : Nat, Writer.WriteFloat64 ⟨none⟩ v = (.error .closedWriter, ⟨none⟩)) ∧
    (∀ (b : Buffer) (v : Nat), b.cap < b.data.length + 2 →
      Writer.WriteUint16 ⟨some b⟩ v = (.error .overflow, ⟨some b⟩)) ∧
    (∀ (b : Buffer) (v : Nat), b.cap < b.data.length + 8 →
      Writer.WriteUint64 ⟨some b⟩ v = (.error .overflow, ⟨some b⟩)) ∧
    (∀ (b : Buffer) (v : Int), b.cap < b.data.length + 8 →
      Writer.WriteInt64 ⟨some b⟩ v = (.error .overflow, ⟨some b⟩)) ∧
    (∀ (b : Buffer) (v : Nat), b.cap < b.data.length + 8 →
      Writer.WriteFloat64 ⟨some b⟩ v = (.error .overflow, ⟨some b⟩)) ∧
    (∀ (b : Buffer) (v : Nat), b.data.length + 2 ≤ b.cap →
      Writer.WriteUint16 ⟨some b⟩ v =
        (.ok (), ⟨some ⟨b.data ++ beBytes 2 v, b.cap⟩⟩)) ∧
    (∀ (b : Buffer) (v : Nat), b.data.length + 8 ≤ b.cap →
      Writer.WriteUint64 ⟨some b⟩ v =
        (.ok (), ⟨some ⟨b.data ++ beBytes 8 v, b.cap⟩⟩)) ∧
    (∀ (b : Buffer) (v : Int), b.data.length + 8 ≤ b.cap →
      Writer.WriteInt64 ⟨some b⟩ v =
        (.ok (), ⟨some ⟨b.data ++ beBytes 8 (v % (2 ^ 64)).toNat, b.cap⟩⟩)) ∧
    (∀ (b : Buffer) (v : Nat), b.data.length + 8 ≤ b.cap →
      Writer.WriteFloat64 ⟨some b⟩ v =
        (.ok (), ⟨some ⟨b.data ++ beBytes 8 v, b.cap⟩⟩)) ∧
    ((Endpoint.acquireWriter ⟨⟨0, false, 256⟩, 0⟩).2 = ⟨some ⟨[], 256⟩⟩ ∧
      Writer.Remaining ⟨some ⟨[], 256⟩⟩ = some 256 ∧
      Writer.Write ⟨some ⟨[], 256⟩⟩ (List.replicate 250 0) =
        (.ok (), ⟨some ⟨beBytes 2 250 ++ List.replicate 250 0, 256⟩⟩) ∧
      Writer.Remaining ⟨some ⟨beBytes 2 250 ++ List.replicate 250 0, 256⟩⟩ =
        some 4 ∧
      Writer.WriteFloat64 ⟨some ⟨beBytes 2 250 ++ List.replicate 250 0, 256⟩⟩ 0 =
        (.error .overflow,
          ⟨some ⟨beBytes 2 250 ++ List.replicate 250 0, 256⟩⟩)) := by
  refine ⟨fun v => rfl, fun v => rfl, fun v => rfl, fun v => rfl,
    ?_, ?_, ?_, ?_, ?_, ?_, ?_, ?_, rfl, by decide, rfl, by decide, rfl⟩
  · intro b v h
    simp [Writer.WriteUint16, h]
  · intro b v h
    simp [Writer.WriteUint64, h]
  · intro b v h
    simp [Writer.WriteInt64, h]
  · intro b v h
    simp [Writer.WriteFloat64, h]
  · intro b v h
    have h' : ¬ b.cap < b.data.length + 2 := by omega
    simp [Writer.WriteUint16, h']
  · intro b v h
    have h' : ¬ b.cap < b.data.length + 8 := by omega
    simp [Writer.WriteUint64, h']
  · intro b v h
    have h' : ¬ b.cap < b.data.length + 8 := by omega
    simp [Writer.WriteInt64, h']
  · intro b v h
    have h' : ¬ b.cap < b.data.length + 8 := by omega
    simp [Writer.WriteFloat64, h']

/-- Witness for C2 at concrete inputs exercising the hypotheses. -/
theorem c2_fixed_width_semantics_witness :
    Writer.WriteUint16 ⟨some ⟨[1], 2⟩⟩ 9 = (.error .overflow, ⟨some ⟨[1], 2⟩⟩) ∧
    Writer.WriteUint64 ⟨some ⟨[], 7⟩⟩ 9 = (.error .overflow, ⟨some ⟨[], 7⟩⟩) ∧
    Writer.WriteInt64 ⟨some ⟨[], 7⟩⟩ 9 = (.error .overflow, ⟨some ⟨[], 7⟩⟩) ∧
    Writer.WriteFloat64 ⟨some ⟨[], 7⟩⟩ 9 = (.error .overflow, ⟨some ⟨[], 7⟩⟩) ∧
    Writer.WriteUint16 ⟨some ⟨[], 2⟩⟩ 9 =
      (.ok (), ⟨some ⟨beBytes 2 9, 2⟩⟩) ∧
    Writer.WriteUint64 ⟨some ⟨[], 8⟩⟩ 9 =
      (.ok (), ⟨some ⟨beBytes 8 9, 8⟩⟩) ∧
    Writer.WriteInt64 ⟨some ⟨[], 8⟩⟩ (-9) =
      (.ok (), ⟨some ⟨beBytes 8 ((-9 : Int) % (2 ^ 64)).toNat, 8⟩⟩) ∧
    Writer.WriteFloat64 ⟨some ⟨[], 8⟩⟩ 9 =
      (.ok (), ⟨some ⟨beBytes 8 9, 8⟩⟩) := by
  have h := c2_fixed_width_semantics
  refine ⟨?_, ?_, ?_, ?_, ?_, ?_, ?_, ?_⟩
  · simpa using h.2.2.2.2.1 ⟨[1], 2⟩ 9 (by decide)
  · simpa using h.2.2.2.2.2.1 ⟨[], 7⟩ 9 (by decide)
  · simpa using h.2.2.2.2.2.2.1 ⟨[], 7⟩ 9 (by decide)
  · simpa using h.2.2.2.2.2.2.2.1 ⟨[], 7⟩ 9 (by decide)
  · simpa using h.2.2.2.2.2.2.2.2.1 ⟨[], 2⟩ 9 (by decide)
  · simpa using h.2.2.2.2.2.2.2.2.2.1 ⟨[], 8⟩ 9 (by decide)
  · simpa using h.2.2.2.2.2.2.2.2.2.2.1 ⟨[], 8⟩ (-9) (by decide)
  · simpa using h.2.2.2.2.2.2.2.2.2.2.2.1 ⟨[], 8⟩ 9 (by decide)

/-- Claim C3: when the endpoint has a non-zero filter hash and a received
datagram's leading 8 bytes decode to a different value, `Receive` produces
no reader and no error — a silent discard. -/
theorem c3_hash_mismatch_silent_discard (e : Endpoint) (ds : List Nat)
    (hhash : e.protocol.Hash ≠ 0) (hlen : 8 ≤ ds.length)
    (hne : beVal (ds.take 8) ≠ e.protocol.Hash) :
    e.Receive ds = (none, 0, none) := by
  have h0 : 0 < e.protocol.Hash := Nat.pos_of_ne_zero hhash
  have hds : ds.take 8 ++ ds.drop 8 = ds := List.take_append_drop 8 ds
  have hrf : readFull 8 ds = (.ok (ds.take 8), ds.drop 8) := by
    conv_lhs => rw [← hds]
    exact readFull_append 8 _ _ (by simp [List.length_take]; omega)
  simp only [Endpoint.Receive, h0, if_true, protocolRead, Reader.ReadUint64]
  rw [hrf]
  simp [hne]

/-- Witness for C3: hash 5 configured, leading 8 bytes decode to 6. -/
theorem c3_hash_mismatch_silent_discard_witness :
    Endpoint.Receive ⟨⟨5, false, 32⟩, 0⟩ (beBytes 8 6 ++ [1, 2]) =
      (none, 0, none) :=
  c3_hash_mismatch_silent_discard ⟨⟨5, false, 32⟩, 0⟩ (beBytes 8 6 ++ [1, 2])
    (by decide) (by decide) (by decide)

/-- Claim C10: on a sequenced endpoint, a datagram that passes the hash check
(or has no hash configured) yet is too short for the 8-byte sequence number
makes `Receive` return a non-nil reader TOGETHER with a non-nil error (and
sequence 0): the caller still holds the buffer and must close the reader,
unlike the hash-mismatch and hash-read-failure paths, which nil the reader. -/
theorem c10_short_sequence_keeps_reader (e : Endpoint) (body ds : List Nat)
    (hseq : e.protocol.Sequenced = true)
    (hH : e.protocol.Hash < 2 ^ 64)
    (hshort : body.length < 8)
    (hds : ds = (if 0 < e.protocol.Hash then beBytes 8 e.protocol.Hash
      else []) ++ body) :
    ∃ err : GoErr,
      e.Receive ds = (some ⟨some ⟨[], e.protocol.Payload⟩⟩, 0, some err) := by
  subst hds
  obtain ⟨err, hsb⟩ := readFull_short 8 body hshort
  have htail : e.receiveSeq ⟨some ⟨body, e.protocol.Payload⟩⟩ =
      (some ⟨some ⟨[], e.protocol.Payload⟩⟩, 0, some err) := by
    simp only [Endpoint.receiveSeq, hseq, if_true, sequenceRead,
      Reader.ReadUint64]
    rw [hsb]
  refine ⟨err, ?_⟩
  by_cases hh : 0 < e.protocol.Hash
  · have hrf := readFull_append 8 (beBytes 8 e.protocol.Hash) body
      (beBytes_length 8 _)
    have hbe : beVal (beBytes 8 e.protocol.Hash) = e.protocol.Hash :=
      beVal_beBytes_eq 8 _ (by
        have h8 : (256 : Nat) ^ 8 = 2 ^ 64 := by norm_num
        omega)
    simp only [if_pos hh, Endpoint.Receive, protocolRead, Reader.ReadUint64]
    rw [hrf]
    simp [hbe, htail]
  · simp only [if_neg hh, Endpoint.Receive, List.nil_append]
    exact htail

/-- Witness for C10: sequenced endpoint with hash 5, datagram carrying the
correct hash and then only 3 bytes. -/
theorem c10_short_sequence_keeps_reader_witness :
    ∃ err : GoErr,
      Endpoint.Receive ⟨⟨5, true, 32⟩, 0⟩ (beBytes 8 5 ++ [1, 2, 3]) =
        (some ⟨some ⟨[], 32⟩⟩, 0, some err) := by
  have h := c10_short_sequence_keeps_reader ⟨⟨5, true, 32⟩, 0⟩ [1, 2, 3]
    (beBytes 8 5 ++ [1, 2, 3]) rfl (by decide) (by decide) (by decide)
  exact h

/-- The endpoint state after `n` writer acquisitions on a sequenced endpoint
starting from counter 0: the protocol is untouched and the counter has been
incremented `n` times with `uint64` wrap-around. -/
theorem acquireTimes_sequenced (p : Protocol) (hs : p.Sequenced = true)
    (k : Nat) :
    Endpoint.acquireTimes ⟨p, 0⟩ k = ⟨p, k % 2 ^ 64⟩ := by
  induction k with
  | zero => simp [Endpoint.acquireTimes]
  | succ k ih =>
    rw [Endpoint.acquireTimes, ih]
    simp only [Endpoint.acquireWriter, hs, if_true, sequenceWrite,
      Endpoint.incr]
    congr 1
    omega

/-- Claim C4: on a sequenced endpoint starting from counter 0, the counter is
incremented BEFORE each sequence value is written, so the writer returned by
the (n+1)-th acquisition carries the 8-byte big-endian sequence value n+1
immediately after the optional filter hash; in particular the first writer
carries 1.  The capacity hypotheses make the header writes fit (their errors
are discarded by `Endpoint.Writer`). -/
theorem c4_nth_writer_sequence (h P n : Nat)
    (hn : n + 1 < 2 ^ 64) (hcap : 8 ≤ P) (hcap2 : 0 < h → 16 ≤ P) :
    ((Endpoint.acquireTimes ⟨⟨h, true, P⟩, 0⟩ n).acquireWriter).2 =
      ⟨some ⟨(if 0 < h then beBytes 8 h else []) ++ beBytes 8 (n + 1), P⟩⟩ := by
  rw [acquireTimes_sequenced ⟨h, true, P⟩ rfl n]
  have hseqval : ((n % 2 ^ 64) + 1) % 2 ^ 64 = n + 1 := by omega
  by_cases hh : 0 < h
  · have h16 := hcap2 hh
    have hw1 : protocolWrite ⟨h, true, P⟩ ⟨some ⟨[], P⟩⟩ =
        (.ok (), ⟨some ⟨beBytes 8 h, P⟩⟩) := by
      simp [protocolWrite, Writer.WriteUint64]
      omega
    have hw2 : Writer.WriteUint64 ⟨some ⟨beBytes 8 h, P⟩⟩ (n + 1) =
        (.ok (), ⟨some ⟨beBytes 8 h ++ beBytes 8 (n + 1), P⟩⟩) := by
      have hc : ¬ P < (beBytes 8 h).length + 8 := by
        rw [beBytes_length]; omega
      simp [Writer.WriteUint64, hc]
    simp only [Endpoint.acquireWriter, if_pos hh, if_true, hw1,
      sequenceWrite, Endpoint.incr, Endpoint.LastSequence, hseqval, hw2]
  · have hw2 : Writer.WriteUint64 ⟨some ⟨[], P⟩⟩ (n + 1) =
        (.ok (), ⟨some ⟨beBytes 8 (n + 1), P⟩⟩) := by
      simp [Writer.WriteUint64]
      omega
    simp only [Endpoint.acquireWriter, if_neg hh, if_true,
      sequenceWrite, Endpoint.incr, Endpoint.LastSequence, hseqval, hw2]
    simp

/-- Witness for C4: hash 5, payload 32, third acquisition carries sequence
value 3. -/
theorem c4_nth_writer_sequence_witness :
    ((Endpoint.acquireTimes ⟨⟨5, true, 32⟩, 0⟩ 2).acquireWriter).2 =
      ⟨some ⟨(if 0 < 5 then beBytes 8 5 else []) ++ beBytes 8 3, 32⟩⟩ :=
  c4_nth_writer_sequence 5 32 2 (by decide) (by decide) (fun _ => by decide)

/-- Claim C5: any sequence of supported typed values successfully written
into a writer, once its buffer contents are handed to a reader, reads back
bit-identically in the same order by the same sequence of typed reads: the
big-endian decodes are left inverses of the encodes. -/
theorem c5_round_trip (items : List Item) (cap rcap : Nat) (w' : Writer)
    (d : List Nat) (c' : Nat)
    (hvalid : ∀ i ∈ items, i.valid)
    (hw : writeItems ⟨some ⟨[], cap⟩⟩ items = (.ok (), w'))
    (hb : w'.buffer = some ⟨d, c'⟩) :
    readItems ⟨some ⟨d, rcap⟩⟩ items = (.ok items, ⟨some ⟨[], rcap⟩⟩) := by
  obtain ⟨c'', hc⟩ := writeItems_ok items ⟨[], cap⟩ w' hw
  rw [hc] at hb
  simp only [List.nil_append] at hb
  have hd : d = itemsBytes items := by
    cases hb
    rfl
  subst hd
  have hread := readItems_itemsBytes items hvalid [] rcap
  simpa using hread

/-- Witness for C5: one value of each supported kind written into a
64-capacity writer and read back. -/
theorem c5_round_trip_witness :
    readItems
        ⟨some ⟨itemsBytes [.u16 7, .u64 1, .i64 (-5), .f64 2, .bytes [8, 9]],
          64⟩⟩
        [.u16 7, .u64 1, .i64 (-5), .f64 2, .bytes [8, 9]] =
      (.ok [.u16 7, .u64 1, .i64 (-5), .f64 2, .bytes [8, 9]],
        ⟨some ⟨[], 64⟩⟩) :=
  c5_round_trip [.u16 7, .u64 1, .i64 (-5), .f64 2, .bytes [8, 9]] 64 64
    ⟨some ⟨itemsBytes [.u16 7, .u64 1, .i64 (-5), .f64 2, .bytes [8, 9]], 64⟩⟩
    (itemsBytes [.u16 7, .u64 1, .i64 (-5), .f64 2, .bytes [8, 9]]) 64
    (by decide) (by rfl) rfl

end Datagram
